import Mathlib

/-!
Verification of the keyword-highlighting core of the Code_editor repository
(src/main.cpp).  The component under study is the pair
SyntaxHighlighter::setupFormats (which builds the ordered rule table of sixteen
whole-word keyword patterns) and SyntaxHighlighter::highlightBlock (which, for
one block of text, walks the rules in table order, iterates every global match
of the rule's pattern, and emits one formatted span per match).

The embedding below models a block of text as a list of characters, a character
format as the token category it denotes, and one setFormat call as one Span
value.  The word-boundary anchors of the patterns are modelled by the default
ASCII word-character class of the regular-expression engine used by the source.
Global matching is modelled as the left-to-right scan that records a match and
resumes immediately after it; the scan is written with an explicit step budget
of one more than the block length, which is always enough because every step
advances the position by at least one character while the pattern is nonempty.
-/

namespace CodeEditor

/-- Token categories, one per character format built by
SyntaxHighlighter::setupFormats: dataTypeFormat, loopFormat and the general
keywordFormat. -/
inductive Category where
  | DataType : Category
  | Loop : Category
  | Keyword : Category
deriving DecidableEq

/-- One highlighted region, as produced by one
setFormat(match.capturedStart(), match.capturedLength(), rule.format) call in
SyntaxHighlighter::highlightBlock. -/
structure Span where
  start : Nat
  length : Nat
  category : Category
deriving DecidableEq

/-- One entry of highlightingRules: the keyword of the whole-word pattern
together with the category that the rule's format denotes. -/
structure HighlightingRule where
  pattern : List Char
  category : Category
deriving DecidableEq

/-- A word character in the sense of the default (ASCII) word class of the
regular-expression engine: letters, digits and the underscore.  The
word-boundary anchors of the patterns are defined from this class. -/
def isWordChar (c : Char) : Bool :=
  c.isAlpha || c.isDigit || c == '_'

/-- The leading word-boundary anchor at position i: satisfied when there is no
preceding character or the preceding character is not a word character. -/
def boundaryBefore (text : List Char) (i : Nat) : Bool :=
  match i with
  | 0 => true
  | j + 1 =>
    match text[j]? with
    | none => true
    | some c => !(isWordChar c)

/-- The trailing word-boundary anchor at position j: satisfied when there is no
character at j or the character at j is not a word character. -/
def boundaryAfter (text : List Char) (j : Nat) : Bool :=
  match text[j]? with
  | none => true
  | some c => !(isWordChar c)

/-- Whether the whole-word pattern of keyword kw matches text at offset i: the
keyword occurs literally at i and both word-boundary anchors hold. -/
def matchesAt (kw text : List Char) (i : Nat) : Bool :=
  decide ((text.drop i).take kw.length = kw) && boundaryBefore text i
    && boundaryAfter text (i + kw.length)

/-- Left-to-right global matching of one pattern over one block, mirroring the
QRegularExpressionMatchIterator loop of highlightBlock: at each position try
the anchored pattern; on a match record its offset and resume right after the
match, otherwise advance one position.  The first argument is a step budget;
the block length plus one is always sufficient for a nonempty pattern. -/
def scanAux (kw text : List Char) : Nat → Nat → List Nat
  | 0, _ => []
  | fuel + 1, i =>
    if i + kw.length ≤ text.length then
      if matchesAt kw text i then
        i :: scanAux kw text fuel (i + kw.length)
      else
        scanAux kw text fuel (i + 1)
    else
      []

/-- All match offsets of one pattern in one block, in left-to-right order. -/
def findMatches (kw text : List Char) : List Nat :=
  scanAux kw text (text.length + 1) 0

/-- The data-type keywords of setupFormats, in source order. -/
def dataTypes : List (List Char) :=
  ["int".toList, "char".toList, "float".toList, "double".toList, "void".toList]

/-- The loop keywords of setupFormats, in source order. -/
def loopKeywords : List (List Char) :=
  ["for".toList, "while".toList, "do".toList, "break".toList, "continue".toList]

/-- The remaining general keywords of setupFormats, in source order. -/
def otherKeywords : List (List Char) :=
  ["if".toList, "else".toList, "return".toList, "switch".toList, "case".toList,
    "default".toList]

/-- highlightingRules as built once by setupFormats: the data-type keywords
first, then the loop keywords, then the general keywords, each paired with its
category. -/
def ruleTable : List HighlightingRule :=
  dataTypes.map (fun kw => ⟨kw, Category.DataType⟩)
    ++ loopKeywords.map (fun kw => ⟨kw, Category.Loop⟩)
    ++ otherKeywords.map (fun kw => ⟨kw, Category.Keyword⟩)

/-- The classifier of SyntaxHighlighter::highlightBlock: for every rule in
table order, every global match of its pattern yields one span, in the order
the matches are found. -/
def classify (text : List Char) : List Span :=
  ruleTable.flatMap fun r =>
    (findMatches r.pattern text).map fun i => ⟨i, r.pattern.length, r.category⟩

/-- All offsets at which a whole-word pattern matches, as the specification
words it: the exhaustive collection of matches within the single block, read
off left to right. -/
def allMatchOffsets (kw text : List Char) : List Nat :=
  (List.range (text.length + 1)).filter (matchesAt kw text)

/-- The classifier as the specification words it: for each rule in table
order, every match of its pattern within the block is emitted as one span. -/
def classifySpec (text : List Char) : List Span :=
  ruleTable.flatMap fun r =>
    (allMatchOffsets r.pattern text).map fun i => ⟨i, r.pattern.length, r.category⟩

example : findMatches "if".toList "if (a) if".toList = [0, 7] := by decide

example : findMatches "int".toList "integer".toList = [] := by decide

example : classify "int x".toList = [Span.mk 0 3 Category.DataType] := by decide

/-- A successful anchored match places the keyword literally at the offset. -/
theorem matchesAt_slice {kw text : List Char} {i : Nat}
    (h : matchesAt kw text i = true) : (text.drop i).take kw.length = kw := by
  simp only [matchesAt, Bool.and_eq_true, decide_eq_true_eq] at h
  exact h.1.1

/-- A successful match of a nonempty keyword lies inside the block. -/
theorem matchesAt_bound {kw text : List Char} {i : Nat} (hkw : 0 < kw.length)
    (h : matchesAt kw text i = true) : i + kw.length ≤ text.length := by
  have hlen := congrArg List.length (matchesAt_slice h)
  simp only [List.length_take, List.length_drop] at hlen
  omega

/-- Character-by-character content of a successful match. -/
theorem matchesAt_getElem {kw text : List Char} {i k : Nat}
    (h : matchesAt kw text i = true) (hk : k < kw.length) :
    text[i + k]? = kw[k]? := by
  calc text[i + k]? = (text.drop i)[k]? := (List.getElem?_drop text i k).symm
    _ = ((text.drop i).take kw.length)[k]? := (List.getElem?_take_of_lt hk).symm
    _ = kw[k]? := by rw [matchesAt_slice h]

/-- A position strictly inside a match of an all-word-character keyword, or
just after its last character, fails the leading word-boundary anchor. -/
theorem boundaryBefore_eq_false {kw text : List Char} {i j : Nat}
    (hw : ∀ c ∈ kw, isWordChar c = true)
    (hi : matchesAt kw text i = true) (hij : i < j) (hj : j ≤ i + kw.length) :
    boundaryBefore text j = false := by
  obtain ⟨j', rfl⟩ : ∃ j', j = j' + 1 := ⟨j - 1, by omega⟩
  have hk : j' - i < kw.length := by omega
  have hcell : text[j']? = kw[j' - i]? := by
    have := matchesAt_getElem hi hk
    rwa [show i + (j' - i) = j' by omega] at this
  rw [List.getElem?_eq_getElem hk] at hcell
  have hword : isWordChar kw[j' - i] = true := hw _ (List.getElem_mem hk)
  simp only [boundaryBefore]
  rw [hcell]
  simp [hword]

/-- Hence no match of the same all-word-character keyword can start strictly
inside another match of it. -/
theorem matchesAt_inner_false {kw text : List Char} {i j : Nat}
    (hw : ∀ c ∈ kw, isWordChar c = true)
    (hi : matchesAt kw text i = true) (hij : i < j) (hj : j < i + kw.length) :
    matchesAt kw text j = false := by
  have hb := boundaryBefore_eq_false hw hi hij (Nat.le_of_lt hj)
  simp [matchesAt, hb]

/-- A position strictly inside a match of an all-word-character keyword fails
the trailing word-boundary anchor. -/
theorem boundaryAfter_eq_false {kw text : List Char} {i j : Nat}
    (hw : ∀ c ∈ kw, isWordChar c = true)
    (hi : matchesAt kw text i = true) (hij : i ≤ j) (hj : j < i + kw.length) :
    boundaryAfter text j = false := by
  have hk : j - i < kw.length := by omega
  have hcell : text[j]? = kw[j - i]? := by
    have := matchesAt_getElem hi hk
    rwa [show i + (j - i) = j by omega] at this
  rw [List.getElem?_eq_getElem hk] at hcell
  have hword : isWordChar kw[j - i] = true := hw _ (List.getElem_mem hk)
  simp only [boundaryAfter]
  rw [hcell]
  simp [hword]

/-- Matches of two distinct all-word-character keywords can never overlap:
any position inside one match is flanked by word characters, which breaks the
boundary anchors of the other, and equal positions force equal keywords. -/
theorem matchesAt_disjoint {kw1 kw2 text : List Char} {i j : Nat}
    (hw1 : ∀ c ∈ kw1, isWordChar c = true)
    (hw2 : ∀ c ∈ kw2, isWordChar c = true)
    (hne : kw1 ≠ kw2)
    (hm1 : matchesAt kw1 text i = true) (hm2 : matchesAt kw2 text j = true) :
    i + kw1.length ≤ j ∨ j + kw2.length ≤ i := by
  by_contra hcon
  push_neg at hcon
  obtain ⟨hji, hij⟩ := hcon
  rcases Nat.lt_trichotomy i j with hlt | heq | hgt
  · have hb := boundaryBefore_eq_false hw1 hm1 hlt (Nat.le_of_lt hji)
    simp [matchesAt, hb] at hm2
  · subst heq
    rcases Nat.lt_trichotomy kw1.length kw2.length with hl | hl | hl
    · have hb := boundaryAfter_eq_false hw2 hm2 (Nat.le_add_right i kw1.length)
        (by omega)
      simp [matchesAt, hb] at hm1
    · apply hne
      have e1 := matchesAt_slice hm1
      have e2 := matchesAt_slice hm2
      rw [← e1, ← e2, hl]
    · have hb := boundaryAfter_eq_false hw1 hm1 (Nat.le_add_right i kw2.length)
        (by omega)
      simp [matchesAt, hb] at hm2
  · have hb := boundaryBefore_eq_false hw2 hm2 hgt (Nat.le_of_lt hij)
    simp [matchesAt, hb] at hm1

/-- The left-to-right resuming scan of a nonempty all-word-character pattern
computes exactly the filter of all matching offsets: skipping over a recorded
match loses nothing, because no further match can start inside it. -/
theorem scanAux_eq_filter {kw text : List Char} (hkw : 0 < kw.length)
    (hw : ∀ c ∈ kw, isWordChar c = true) :
    ∀ fuel i, text.length + 1 ≤ i + fuel →
      scanAux kw text fuel i
        = (List.range' i (text.length + 1 - i)).filter (matchesAt kw text) := by
  intro fuel
  induction fuel with
  | zero =>
    intro i hf
    have h0 : text.length + 1 - i = 0 := by omega
    simp [scanAux, h0]
  | succ fuel ih =>
    intro i hf
    by_cases hle : i + kw.length ≤ text.length
    · by_cases hm : matchesAt kw text i = true
      · have hrec := ih (i + kw.length) (by omega)
        have hcount : text.length + 1 - i
            = (text.length + 1 - (i + kw.length)) + kw.length := by omega
        rw [show scanAux kw text (fuel + 1) i
              = i :: scanAux kw text fuel (i + kw.length) from by
            simp [scanAux, hle, hm],
          hrec, hcount, ← List.range'_append_1, List.filter_append]
        have hone : (List.range' i kw.length).filter (matchesAt kw text) = [i] := by
          obtain ⟨n, hn⟩ : ∃ n, kw.length = n + 1 := ⟨kw.length - 1, by omega⟩
          rw [hn, List.range'_succ, List.filter_cons_of_pos hm]
          have hnil : (List.range' (i + 1) n).filter (matchesAt kw text) = [] := by
            rw [List.filter_eq_nil_iff]
            intro x hx
            rw [List.mem_range'_1] at hx
            have hfalse := matchesAt_inner_false hw hm
              (show i < x by omega) (show x < i + kw.length by omega)
            simp [hfalse]
          rw [hnil]
        rw [hone]
        rfl
      · have hrec := ih (i + 1) (by omega)
        rw [show scanAux kw text (fuel + 1) i = scanAux kw text fuel (i + 1) from by
            simp [scanAux, hle, hm],
          hrec]
        have hc2 : text.length + 1 - (i + 1) = text.length - i := by omega
        have hc1 : text.length + 1 - i = (text.length - i) + 1 := by omega
        rw [hc2, hc1, List.range'_succ, List.filter_cons_of_neg hm]
    · rw [show scanAux kw text (fuel + 1) i = [] from by simp [scanAux, hle],
        eq_comm, List.filter_eq_nil_iff]
      intro x hx
      rw [List.mem_range'_1] at hx
      intro hmx
      have := matchesAt_bound hkw hmx
      omega

/-- The scan of highlightBlock finds exactly the exhaustive set of matching
offsets described by the specification. -/
theorem findMatches_eq_allMatchOffsets {kw text : List Char} (hkw : 0 < kw.length)
    (hw : ∀ c ∈ kw, isWordChar c = true) :
    findMatches kw text = allMatchOffsets kw text := by
  unfold findMatches allMatchOffsets
  rw [scanAux_eq_filter hkw hw (text.length + 1) 0 (by omega),
    List.range_eq_range', Nat.sub_zero]

/-- Every offset reported by the scan is a genuine match. -/
theorem mem_findMatches {kw text : List Char} {x : Nat} (hkw : 0 < kw.length)
    (hw : ∀ c ∈ kw, isWordChar c = true) (hx : x ∈ findMatches kw text) :
    matchesAt kw text x = true := by
  rw [findMatches_eq_allMatchOffsets hkw hw] at hx
  unfold allMatchOffsets at hx
  exact (List.mem_filter.mp hx).2

/-- Every pattern in the rule table is nonempty and made of word characters. -/
theorem ruleTable_patterns_wordlike :
    ∀ r ∈ ruleTable, 0 < r.pattern.length ∧ ∀ c ∈ r.pattern, isWordChar c = true := by
  decide

/-- Every pattern in the rule table has at least two characters. -/
theorem ruleTable_patterns_two_le : ∀ r ∈ ruleTable, 2 ≤ r.pattern.length := by
  decide

/-- Distinct entries of the rule table carry distinct patterns. -/
theorem ruleTable_patterns_distinct :
    ruleTable.Pairwise (fun r1 r2 => r1.pattern ≠ r2.pattern) := by
  have h : (ruleTable.map (fun r => r.pattern)).Nodup := by decide
  rw [List.Nodup, List.pairwise_map] at h
  exact h

/-- C1: classify agrees with the reference computation of the specification:
for each rule in rule-table order, every whole-word match of the rule's
pattern within the block is emitted as one span with the match offset, the
match length and the rule's category (exhaustively within the single block,
left to right per rule), so the output sequence is grouped by rule-table
position first, not by left-to-right text position. -/
theorem classify_eq_classifySpec (text : List Char) :
    classify text = classifySpec text := by
  unfold classify classifySpec List.flatMap
  congr 1
  apply List.map_congr_left
  intro r hr
  obtain ⟨hpos, hw⟩ := ruleTable_patterns_wordlike r hr
  rw [findMatches_eq_allMatchOffsets hpos hw]

/-- C2: the rule table is exactly the sixteen whole-word rules in source
order: the five data-type keywords with category DataType, then the five loop
keywords with category Loop, then the six general keywords with category
Keyword.  The word-boundary anchoring of every pattern is the match semantics
matchesAt, which requires non-word characters (or the block edge) on both
sides. -/
theorem ruleTable_contents :
    ruleTable.map (fun r => (r.pattern, r.category))
      = [("int".toList, Category.DataType), ("char".toList, Category.DataType),
        ("float".toList, Category.DataType), ("double".toList, Category.DataType),
        ("void".toList, Category.DataType), ("for".toList, Category.Loop),
        ("while".toList, Category.Loop), ("do".toList, Category.Loop),
        ("break".toList, Category.Loop), ("continue".toList, Category.Loop),
        ("if".toList, Category.Keyword), ("else".toList, Category.Keyword),
        ("return".toList, Category.Keyword), ("switch".toList, Category.Keyword),
        ("case".toList, Category.Keyword), ("default".toList, Category.Keyword)]
      ∧ ruleTable.length = 16 := by
  exact ⟨rfl, rfl⟩

/-- C3: a block that is exactly one configured keyword (hence with no adjacent
word characters) classifies to exactly one span: start 0, the full length of
the block, and the category of that keyword's rule-table entry; no other rule
contributes a span. -/
theorem classify_single_keyword :
    ∀ r ∈ ruleTable, classify r.pattern = [Span.mk 0 r.pattern.length r.category] := by
  decide

/-- Witness for C3 at the keyword while. -/
theorem classify_single_keyword_witness :
    classify "while".toList = [Span.mk 0 5 Category.Loop] :=
  classify_single_keyword (HighlightingRule.mk "while".toList Category.Loop) (by decide)

/-- C4: whole-word boundary behaviour: the block integer produces no
data-type span for the embedded int, while the block int-space-x produces the
data-type span of offset 0 and length 3 covering exactly int. -/
theorem classify_whole_word_boundary :
    (classify "integer".toList).filter (fun s => s.category == Category.DataType) = []
      ∧ Span.mk 0 3 Category.DataType ∈ classify "int x".toList := by
  decide

/-- C5: a block in which no rule's keyword occurs as a whole word at any
offset classifies to the empty span sequence. -/
theorem classify_no_keyword_empty (text : List Char)
    (h : ∀ r ∈ ruleTable, ∀ i < text.length, matchesAt r.pattern text i = false) :
    classify text = [] := by
  unfold classify
  rw [List.flatMap_eq_nil_iff]
  intro r hr
  rw [List.map_eq_nil_iff]
  obtain ⟨hpos, hw⟩ := ruleTable_patterns_wordlike r hr
  rw [findMatches_eq_allMatchOffsets hpos hw]
  unfold allMatchOffsets
  rw [List.filter_eq_nil_iff]
  intro x hx hmx
  have hb := matchesAt_bound hpos hmx
  have hfalse := h r hr x (by omega)
  rw [hfalse] at hmx
  exact Bool.false_ne_true hmx

/-- Witness for C5 at the empty block. -/
theorem classify_no_keyword_empty_witness : classify ([] : List Char) = [] :=
  classify_no_keyword_empty [] (by decide)

/-- C6: the block for(int i=0;i<10;i++) ... return ... yields the Loop span
for for at offset 0 and length 3, the DataType span for int at offset 4 and
length 3, and the Keyword span for return at offset 24 and length 6, and the
three spans are pairwise disjoint. -/
theorem classify_mixed_block :
    (Span.mk 0 3 Category.Loop
        ∈ classify "for(int i=0;i<10;i++) \x7b return; \x7d".toList
      ∧ Span.mk 4 3 Category.DataType
        ∈ classify "for(int i=0;i<10;i++) \x7b return; \x7d".toList
      ∧ Span.mk 24 6 Category.Keyword
        ∈ classify "for(int i=0;i<10;i++) \x7b return; \x7d".toList)
      ∧ (0 + 3 ≤ 4 ∧ 4 + 3 ≤ 24) := by
  decide

/-- C7: the classifier is deterministic and stateless: it is a pure function
of the block text alone — there is no persistent state, memoization or
dependence on earlier calls in the embedding — so two calls on the same block
produce identical span sequences. -/
theorem classify_deterministic (text : List Char) :
    classify text = classify text := rfl

/-- C8: the classifier is total and cannot fail: on every block (empty,
arbitrarily long or non-ASCII) it returns a span sequence — exactly one span
per match of each of the sixteen fixed rules, with no error outcome in its
type — and the empty block yields the empty sequence. -/
theorem classify_total :
    (∀ text : List Char, (classify text).length
        = (ruleTable.map fun r => (findMatches r.pattern text).length).sum)
      ∧ classify ([] : List Char) = [] := by
  constructor
  · intro text
    unfold classify List.flatMap
    rw [List.length_flatten, List.map_map]
    congr 1
    apply List.map_congr_left
    intro r hr
    simp
  · rfl

/-- C9: with the fixed sixteen-keyword table, no two spans produced for any
block overlap: the scan of one rule resumes after each match, and matches of
two distinct whole-word keywords can never occupy overlapping offsets. -/
theorem classify_pairwise_disjoint (text : List Char) :
    (classify text).Pairwise
      (fun s1 s2 => s1.start + s1.length ≤ s2.start ∨ s2.start + s2.length ≤ s1.start) := by
  unfold classify
  rw [List.pairwise_flatMap]
  constructor
  · intro r hr
    obtain ⟨hpos, hw⟩ := ruleTable_patterns_wordlike r hr
    rw [List.pairwise_map]
    have hsorted : (findMatches r.pattern text).Pairwise (· < ·) := by
      rw [findMatches_eq_allMatchOffsets hpos hw]
      unfold allMatchOffsets
      exact (List.pairwise_lt_range _).filter _
    refine List.Pairwise.imp_of_mem ?_ hsorted
    intro a b ha hb hab
    have hma := mem_findMatches hpos hw ha
    have hmb := mem_findMatches hpos hw hb
    show a + r.pattern.length ≤ b ∨ b + r.pattern.length ≤ a
    left
    by_contra hcon
    push_neg at hcon
    have hfalse := matchesAt_inner_false hw hma hab hcon
    rw [hfalse] at hmb
    exact Bool.false_ne_true hmb
  · refine List.Pairwise.imp_of_mem ?_ ruleTable_patterns_distinct
    intro r1 r2 hr1 hr2 hne x hx y hy
    obtain ⟨hpos1, hw1⟩ := ruleTable_patterns_wordlike r1 hr1
    obtain ⟨hpos2, hw2⟩ := ruleTable_patterns_wordlike r2 hr2
    rw [List.mem_map] at hx hy
    obtain ⟨a, ha, rfl⟩ := hx
    obtain ⟨b, hb, rfl⟩ := hy
    have hma := mem_findMatches hpos1 hw1 ha
    have hmb := mem_findMatches hpos2 hw2 hb
    exact matchesAt_disjoint hw1 hw2 hne hma hmb

/-- C10: every span produced for a block indexes validly into it: its start is
at least 0, it ends within the block, it is at least two characters long, and
the text it covers is exactly the pattern of a rule-table entry whose length
and category it carries. -/
theorem classify_spans_wellformed (text : List Char) :
    ∀ s ∈ classify text, 0 ≤ s.start ∧ s.start + s.length ≤ text.length
      ∧ 2 ≤ s.length
      ∧ ∃ r ∈ ruleTable, (text.drop s.start).take s.length = r.pattern
        ∧ s.length = r.pattern.length ∧ s.category = r.category := by
  intro s hs
  unfold classify at hs
  rw [List.mem_flatMap] at hs
  obtain ⟨r, hr, hs⟩ := hs
  rw [List.mem_map] at hs
  obtain ⟨x, hx, rfl⟩ := hs
  obtain ⟨hpos, hw⟩ := ruleTable_patterns_wordlike r hr
  have hm := mem_findMatches hpos hw hx
  exact ⟨Nat.zero_le _, matchesAt_bound hpos hm, ruleTable_patterns_two_le r hr,
    r, hr, matchesAt_slice hm, rfl, rfl⟩

/-- Witness for C10 at the two-character block if and its unique span. -/
theorem classify_spans_wellformed_witness :
    Span.mk 0 2 Category.Keyword ∈ classify "if".toList
      ∧ (0 ≤ 0 ∧ 0 + 2 ≤ ("if".toList).length ∧ 2 ≤ 2
        ∧ ∃ r ∈ ruleTable, (("if".toList).drop 0).take 2 = r.pattern
          ∧ 2 = r.pattern.length ∧ Category.Keyword = r.category) :=
  ⟨by decide,
    classify_spans_wellformed "if".toList (Span.mk 0 2 Category.Keyword) (by decide)⟩

end CodeEditor
